import Mathlib

/-!
Shallow embedding of the blemish-removal tool (blemish_removal.cpp) and
proofs about its patch scoring, donor-patch selection, mouse handler and
interactive reset loop.

Modelling conventions:
* A pixel is a BGR triple of natural channel values; an image or patch is a
  row-major list of rows.  `cv::Mat::rows`/`cols` become `rows`/`cols`.
* `cvtColor(BGR2HSV)` followed by taking channel 2 keeps, per pixel, the
  value channel V = max(B, G, R); this is exactly what OpenCV computes for
  8-bit input, and it is the only channel the scorer reads.
* `cv::Laplacian(src, dst, CV_32F, 3, 1/(255*3*2), 0, BORDER_DEFAULT)` with
  aperture 3 convolves with the kernel [[2,0,2],[0,-8,0],[2,0,2]] (the sum
  of the two second-derivative Sobel kernels) under BORDER_REFLECT_101
  border extension, scaling each response by 1/1530.  Arithmetic is exact
  here (the target code rounds to float); the squared scaled responses sum
  to (sum of squared integer responses) / 1530^2, which is how the score is
  represented, via `Rat.divInt`.
* The double constant 0.7071 is represented exactly as 7071/10000; direction
  vectors are kept as integer numerators over 10000 and the C++
  `static_cast<int>` (truncation toward zero) becomes `truncToInt`.
* OpenCV assertion failures (submatrix ranges, cvtColor on an empty matrix)
  are modelled as `Except.error`; the "no donor" empty `cv::Mat` result is
  `Option.none`.
* The seamless-cloning primitive is external to the repository, so the
  mouse handler is parameterised by an arbitrary compositing function.
-/

namespace BlemishRemoval

/-- A BGR pixel: (blue, green, red) channel values. -/
abbrev Pix : Type := ℕ × ℕ × ℕ

/-- A row-major raster of pixels; used both for whole images and patches. -/
abbrev Img : Type := List (List Pix)

/-- A square sub-region of an image, same representation as an image. -/
abbrev Patch : Type := List (List Pix)

/-- Number of pixel rows (cv::Mat::rows). -/
def rows (im : Img) : ℕ := im.length

/-- Number of pixel columns (cv::Mat::cols), read off the first row. -/
def cols (im : Img) : ℕ := (im.headD []).length

/-- Well-formedness: the raster is rectangular (every cv::Mat is). -/
def WF (im : Img) : Prop := ∀ row ∈ im, row.length = cols im

instance (im : Img) : Decidable (WF im) :=
  inferInstanceAs (Decidable (∀ row ∈ im, row.length = cols im))

/-- Channel V of the BGR-to-HSV conversion for 8-bit data: max(B, G, R). -/
def pixV (p : Pix) : ℕ := max p.1 (max p.2.1 p.2.2)

/-- The V channel of a patch, as produced by cvtColor + split. -/
def vChan (p : Patch) : List (List ℕ) := p.map (List.map pixV)

/-- BORDER_REFLECT_101 index mapping for aperture radius 1, matching
OpenCV borderInterpolate: a length-1 axis always resolves to index 0,
otherwise -1 reflects to 1 and n reflects to n - 2. -/
def reflect101 (n : ℕ) (t : ℤ) : ℕ :=
  if n = 1 then 0
  else if t < 0 then (-t).toNat
  else if (n : ℤ) ≤ t then (2 * n - 2 - t).toNat
  else t.toNat

/-- Pixel lookup in a single-channel raster, row y and column x. -/
def vAt (vm : List (List ℕ)) (x y : ℕ) : ℕ := (vm.getD y []).getD x 0

/-- One border-reflected pixel probe of the Laplacian convolution. -/
def lapProbe (vm : List (List ℕ)) (m n : ℕ) (a b : ℤ) : ℤ :=
  (vAt vm (reflect101 m a) (reflect101 n b) : ℤ)

/-- One unscaled response of the aperture-3 Laplacian kernel
[[2,0,2],[0,-8,0],[2,0,2]] at column x, row y, with reflected borders
(m columns, n rows). -/
def lapResp (vm : List (List ℕ)) (m n : ℕ) (x y : ℤ) : ℤ :=
  2 * (lapProbe vm m n (x - 1) (y - 1) + lapProbe vm m n (x + 1) (y - 1) +
       lapProbe vm m n (x - 1) (y + 1) + lapProbe vm m n (x + 1) (y + 1))
    - 8 * lapProbe vm m n x y

/-- Sum over the whole patch of the squared unscaled Laplacian responses. -/
def lapSumSq (p : Patch) : ℤ :=
  ((List.range (rows p)).map (fun y : ℕ =>
    ((List.range (cols p)).map (fun x : ℕ =>
      (lapResp (vChan p) (cols p) (rows p) (x : ℤ) (y : ℤ)) ^ 2)).sum)).sum

/-- computePatchVariance: cvtColor to HSV, split, Laplacian of the V channel
with aperture 3 and scale 1/(255*3*2), square, sum.  Each scaled response is
lapResp/1530, so the sum of their squares is lapSumSq/1530^2.  cvtColor
asserts that its source is non-empty, modelled by `none`. -/
def computePatchVariance (p : Patch) : Option ℚ :=
  if rows p = 0 ∨ cols p = 0 then none
  else some (Rat.divInt (lapSumSq p) (1530 * 1530))

/-- Truncation toward zero of the fraction n / d (for d > 0), the behaviour
of the C++ static_cast<int> applied to a double. -/
def truncToInt (n d : ℤ) : ℤ := if 0 ≤ n then n / d else -((-n) / d)

/-- The eight compass direction vectors of the source, in source order,
as exact numerators over 10000 (0.7071 = 7071/10000).  In image coordinates
(y grows downward) the order is E, SE, S, SW, W, NW, N, NE. -/
def kDirs : List (ℤ × ℤ) :=
  [(10000, 0), (7071, 7071), (0, 10000), (-7071, 7071),
   (-10000, 0), (-7071, -7071), (0, -10000), (7071, -7071)]

/-- srcCenter for one direction: static_cast<int>(center + d * radius * 2),
computed exactly over the scaled integers. -/
def candCenter (c : ℤ × ℤ) (radius : ℤ) (d : ℤ × ℤ) : ℤ × ℤ :=
  (truncToInt (10000 * c.1 + d.1 * radius * 2) 10000,
   truncToInt (10000 * c.2 + d.2 * radius * 2) 10000)

/-- The eight candidate centers, in the enumeration order of the source. -/
def candidates (c : ℤ × ℤ) (radius : ℤ) : List (ℤ × ℤ) :=
  kDirs.map (candCenter c radius)

/-- The in-bounds test of selectBestPatch: the negation of
x0 < 0 || y0 < 0 || x1 > image.cols || y1 > image.rows. -/
def inB (im : Img) (radius : ℤ) (sc : ℤ × ℤ) : Bool :=
  !(sc.1 - radius < 0 || sc.2 - radius < 0 ||
    sc.1 + radius + 1 > (cols im : ℤ) || sc.2 + radius + 1 > (rows im : ℤ))

/-- The pixels of image(Range(y0, y1), Range(x0, x1)), row-major. -/
def slicePatch (im : Img) (x0 y0 x1 y1 : ℤ) : Patch :=
  ((im.drop y0.toNat).take (y1 - y0).toNat).map
    (fun row => (row.drop x0.toNat).take (x1 - x0).toNat)

/-- image(Range(y0, y1), Range(x0, x1)) with the cv::Mat range assertions
(0 <= start <= end <= size on both axes). -/
def extract (im : Img) (x0 y0 x1 y1 : ℤ) : Except String Patch :=
  if 0 ≤ y0 ∧ y0 ≤ y1 ∧ y1 ≤ (rows im : ℤ) ∧ 0 ≤ x0 ∧ x0 ≤ x1 ∧ x1 ≤ (cols im : ℤ)
  then .ok (slicePatch im x0 y0 x1 y1) else .error "Mat range assertion"

/-- var < minVariance, where minVariance starts at +infinity (`none`). -/
def ltInf (v : ℚ) : Option ℚ → Bool
  | none => true
  | some m => decide (v < m)

/-- The candidate loop of selectBestPatch: skip out-of-bounds candidates,
extract and score the rest, keep the first strict improvement.  The clone of
the kept patch is a value copy here. -/
def selectGo (im : Img) (radius : ℤ) :
    List (ℤ × ℤ) → Option Patch → Option ℚ → Except String (Option Patch)
  | [], best, _ => .ok best
  | sc :: rest, best, minVar =>
    if inB im radius sc then
      match extract im (sc.1 - radius) (sc.2 - radius) (sc.1 + radius + 1) (sc.2 + radius + 1) with
      | .error e => .error e
      | .ok patch =>
        match computePatchVariance patch with
        | none => .error "cvtColor: empty source"
        | some v =>
          if ltInf v minVar then selectGo im radius rest (some patch) (some v)
          else selectGo im radius rest best minVar
    else selectGo im radius rest best minVar

/-- selectBestPatch of the source: loop over the eight candidates with
bestPatch initially the empty Mat (`none`) and minVariance infinity. -/
def selectBestPatch (im : Img) (c : ℤ × ℤ) (radius : ℤ) : Except String (Option Patch) :=
  selectGo im radius (candidates c radius) none none

/-- The patch extracted for an in-bounds candidate center. -/
def patchAt (im : Img) (radius : ℤ) (sc : ℤ × ℤ) : Patch :=
  slicePatch im (sc.1 - radius) (sc.2 - radius) (sc.1 + radius + 1) (sc.2 + radius + 1)

/-- The score of the patch extracted at an in-bounds candidate center. -/
def patchScore (im : Img) (radius : ℤ) (sc : ℤ × ℤ) : ℚ :=
  Rat.divInt (lapSumSq (patchAt im radius sc)) (1530 * 1530)

/-- The (patch, score) pairs the loop actually scores: exactly the
in-bounds candidates, in enumeration order. -/
def scPairs (im : Img) (radius : ℤ) (l : List (ℤ × ℤ)) : List (Patch × ℚ) :=
  (l.filter (inB im radius)).map (fun sc => (patchAt im radius sc, patchScore im radius sc))

/-- The pure accumulator loop underlying selectGo, on scored pairs. -/
def loopPairs : List (Patch × ℚ) → Option (Patch × ℚ) → Option (Patch × ℚ)
  | [], acc => acc
  | x :: rest, acc =>
    if ltInf x.2 (acc.map Prod.snd) then loopPairs rest (some x) else loopPairs rest acc

/-- First-encountered minimal pair of a list (head wins ties). -/
def firstMinPS : List (Patch × ℚ) → Option (Patch × ℚ)
  | [] => none
  | x :: rest =>
    match firstMinPS rest with
    | none => some x
    | some y => if y.2 < x.2 then some y else some x

/-- Blemish radius used by the mouse handler (kDefaultRad). -/
def kDefaultRad : ℤ := 20

/-- onMouse for a left click at (x, y): select the best patch around the
click; if none is found return with the working image untouched, otherwise
composite the donor patch by the external seamless-cloning primitive,
abstracted as `cloneFn`. -/
def onMouse (cloneFn : Patch → Img → ℤ × ℤ → Img) (g : Img) (x y : ℤ) :
    Except String Img :=
  match selectBestPatch g (x, y) kDefaultRad with
  | .error e => .error e
  | .ok none => .ok g
  | .ok (some patch) => .ok (cloneFn patch g (x, y))

/-- User events of the interactive loop: a left click, or a key press
(the code reads waitKey(20) & 0xFF). -/
inductive Event where
  | click (x y : ℤ)
  | key (k : ℕ)

/-- The waitKey loop of runBlemishRemoval: Esc (27) stops, the letter c
(99) or C (67) copies the pristine original back over the working image,
clicks run the mouse callback on the working image.  The error branch of a
click is unreachable for the fixed nonnegative radius and kept only to
totalise the match. -/
def loopRun (cloneFn : Patch → Img → ℤ × ℤ → Img) (original : Img) :
    List Event → Img → Img
  | [], g => g
  | Event.click x y :: rest, g =>
    loopRun cloneFn original rest ((onMouse cloneFn g x y).toOption.getD g)
  | Event.key k :: rest, g =>
    if k = 27 then g
    else if k = 99 ∨ k = 67 then loopRun cloneFn original rest original
    else loopRun cloneFn original rest g

/-- runBlemishRemoval: both the working image g_sourceImage and the pristine
backup start as clones of the loaded image; then the event loop runs. -/
def runBlemishRemoval (cloneFn : Patch → Img → ℤ × ℤ → Img) (image : Img)
    (events : List Event) : Img :=
  loopRun cloneFn image events image

/-- The direction enumeration order asserted by the specification,
N, NE, E, SE, S, SW, W, NW, written in image coordinates (North = -y).
This follows the wording of the spec, not the source. -/
def specKDirs : List (ℤ × ℤ) :=
  [(0, -10000), (7071, -7071), (10000, 0), (7071, 7071),
   (0, 10000), (-7071, 7071), (-10000, 0), (-7071, -7071)]

/-- The selector as the specification words it: same loop, but enumerating
the candidates in the spec order N, NE, E, SE, S, SW, W, NW. -/
def specSelectBestPatch (im : Img) (c : ℤ × ℤ) (radius : ℤ) :
    Except String (Option Patch) :=
  selectGo im radius (specKDirs.map (candCenter c radius)) none none

/-- Equality of embedded OpenCV call results is decidable. -/
instance {e a : Type} [DecidableEq e] [DecidableEq a] : DecidableEq (Except e a)
  | .error x, .error y =>
    if h : x = y then isTrue (by rw [h]) else isFalse (fun hh => by cases hh; exact h rfl)
  | .error _, .ok _ => isFalse (fun hh => by cases hh)
  | .ok _, .error _ => isFalse (fun hh => by cases hh)
  | .ok x, .ok y =>
    if h : x = y then isTrue (by rw [h]) else isFalse (fun hh => by cases hh; exact h rfl)

/-- Gray value of the 9x9 tie-break test image at column x, row y: the
patches around the North and South candidates of a click at (4,4) with
radius 1 carry a plus-shaped 50/10 pattern, the patch around the East
candidate a plus-shaped 50/30 pattern (all three have Laplacian score 0,
the pattern being harmonic under reflected borders), and everything else
is 200. -/
def valC1 (x y : ℕ) : ℕ :=
  if 3 ≤ x ∧ x ≤ 5 ∧ 1 ≤ y ∧ y ≤ 3 then (if (x + y) % 2 = 0 then 50 else 10)
  else if 3 ≤ x ∧ x ≤ 5 ∧ 5 ≤ y ∧ y ≤ 7 then (if (x + y) % 2 = 0 then 50 else 10)
  else if 5 ≤ x ∧ x ≤ 7 ∧ 3 ≤ y ∧ y ≤ 5 then (if (x + y) % 2 = 0 then 50 else 30)
  else 200

/-- The 9x9 tie-break test image (gray: all three channels equal). -/
def imgC1 : Img :=
  (List.range 9).map (fun y => (List.range 9).map (fun x => (valC1 x y, valC1 x y, valC1 x y)))

/-- The zero-score patch around the East candidate (6,4) of imgC1. -/
def patchEast : Patch :=
  [[(50,50,50),(30,30,30),(50,50,50)],
   [(30,30,30),(50,50,50),(30,30,30)],
   [(50,50,50),(30,30,30),(50,50,50)]]

/-- The zero-score patch around the North candidate (4,2) of imgC1. -/
def patchNorth : Patch :=
  [[(50,50,50),(10,10,10),(50,50,50)],
   [(10,10,10),(50,50,50),(10,10,10)],
   [(50,50,50),(10,10,10),(50,50,50)]]

/-- A 5x5 image: every candidate of a radius-20 click is out of bounds. -/
def imgTiny : Img := List.replicate 5 (List.replicate 5 ((7, 7, 7) : Pix))

/-- A 41x81 black image: for a radius-20 click at (0, 20) exactly one
candidate, the East one at (40, 20), is in bounds. -/
def img41 : Img := List.replicate 41 (List.replicate 81 ((0, 0, 0) : Pix))

/-- A concrete stand-in for the external seamless-cloning primitive, used
only to instantiate theorems at closed inputs. -/
def cloneNull : Patch → Img → ℤ × ℤ → Img := fun _ _ _ => []

/-- A uniform 3x3 patch of pixel value (9,9,9). -/
def uniformPatch3 : Patch := List.replicate 3 (List.replicate 3 ((9, 9, 9) : Pix))

/-! ### Helper lemmas -/

theorem truncToInt_bound (z a b : ℤ) (h1 : -(10000 * b) ≤ a) (h2 : a ≤ 10000 * b) :
    -b ≤ truncToInt (10000 * z + a) 10000 - z ∧ truncToInt (10000 * z + a) 10000 - z ≤ b := by
  unfold truncToInt
  split <;> omega

theorem truncToInt_exact (z : ℤ) : truncToInt (10000 * z) 10000 = z := by
  unfold truncToInt
  split <;> omega

theorem reflect101_lt (n : ℕ) (t : ℤ) (hn : 1 ≤ n) (h1 : -1 ≤ t) (h2 : t ≤ n) :
    reflect101 n t < n := by
  unfold reflect101
  split_ifs <;> omega

theorem vChan_at_uniform (p : Patch) (c : Pix)
    (hrect : ∀ row ∈ p, row.length = cols p)
    (huni : ∀ row ∈ p, ∀ pix ∈ row, pix = c)
    (x y : ℕ) (hy : y < rows p) (hx : x < cols p) :
    vAt (vChan p) x y = pixV c := by
  unfold vAt vChan
  have hy' : y < (p.map (List.map pixV)).length := by simpa [rows] using hy
  rw [List.getD_eq_getElem _ _ hy', List.getElem_map]
  have hy2 : y < p.length := by simpa [rows] using hy
  have hrow : p[y] ∈ p := List.getElem_mem hy2
  have hlen : (p[y]).length = cols p := hrect _ hrow
  have hx' : x < ((p[y]).map pixV).length := by simpa [hlen] using hx
  rw [List.getD_eq_getElem _ _ hx', List.getElem_map]
  exact congrArg pixV (huni _ hrow _ (List.getElem_mem (by simpa [hlen] using hx)))

theorem lapResp_uniform (p : Patch) (c : Pix)
    (hrect : ∀ row ∈ p, row.length = cols p)
    (huni : ∀ row ∈ p, ∀ pix ∈ row, pix = c)
    (x y : ℤ) (hx0 : 0 ≤ x) (hx : x < cols p) (hy0 : 0 ≤ y) (hy : y < rows p) :
    lapResp (vChan p) (cols p) (rows p) x y = 0 := by
  have hm : 1 ≤ cols p := by omega
  have hn : 1 ≤ rows p := by omega
  have key : ∀ a b : ℤ, -1 ≤ a → a ≤ cols p → -1 ≤ b → b ≤ rows p →
      lapProbe (vChan p) (cols p) (rows p) a b = (pixV c : ℤ) := by
    intro a b ha1 ha2 hb1 hb2
    unfold lapProbe
    rw [vChan_at_uniform p c hrect huni _ _
      (reflect101_lt _ _ hn hb1 hb2) (reflect101_lt _ _ hm ha1 ha2)]
  unfold lapResp
  rw [key (x - 1) (y - 1) (by omega) (by omega) (by omega) (by omega),
      key (x + 1) (y - 1) (by omega) (by omega) (by omega) (by omega),
      key (x - 1) (y + 1) (by omega) (by omega) (by omega) (by omega),
      key (x + 1) (y + 1) (by omega) (by omega) (by omega) (by omega),
      key x y (by omega) (by omega) (by omega) (by omega)]
  ring

theorem lapSumSq_uniform (p : Patch) (c : Pix)
    (hrect : ∀ row ∈ p, row.length = cols p)
    (huni : ∀ row ∈ p, ∀ pix ∈ row, pix = c) :
    lapSumSq p = 0 := by
  unfold lapSumSq
  apply List.sum_eq_zero
  intro z hz
  rcases List.mem_map.mp hz with ⟨y, hy, rfl⟩
  apply List.sum_eq_zero
  intro w hw
  rcases List.mem_map.mp hw with ⟨x, hx, rfl⟩
  have hx' : x < cols p := List.mem_range.mp hx
  have hy' : y < rows p := List.mem_range.mp hy
  rw [lapResp_uniform p c hrect huni (x : ℤ) (y : ℤ) (Int.natCast_nonneg x)
    (by exact_mod_cast hx') (Int.natCast_nonneg y) (by exact_mod_cast hy')]
  ring

/-! ### Claim C4 -/

/-- Claim C4: for every non-empty rectangular patch all of whose pixels
carry one uniform value, computePatchVariance returns exactly zero. -/
theorem C4_uniform_patch_zero (p : Patch) (c : Pix)
    (hr : rows p ≠ 0) (hc : cols p ≠ 0)
    (hrect : ∀ row ∈ p, row.length = cols p)
    (huni : ∀ row ∈ p, ∀ pix ∈ row, pix = c) :
    computePatchVariance p = some 0 := by
  unfold computePatchVariance
  rw [if_neg (by tauto), lapSumSq_uniform p c hrect huni, Rat.zero_divInt]

/-- Witness for C4 at a concrete uniform 3x3 patch of pixel value (9,9,9). -/
theorem C4_uniform_patch_zero_witness :
    (rows uniformPatch3 ≠ 0 ∧ cols uniformPatch3 ≠ 0 ∧
      (∀ row ∈ uniformPatch3, row.length = cols uniformPatch3) ∧
      (∀ row ∈ uniformPatch3, ∀ pix ∈ row, pix = ((9, 9, 9) : Pix))) ∧
    computePatchVariance uniformPatch3 = some 0 :=
  ⟨⟨by decide, by decide, by decide, by decide⟩,
    C4_uniform_patch_zero uniformPatch3 (9, 9, 9) (by decide) (by decide) (by decide) (by decide)⟩

/-! ### Claim C5 -/

/-- Claim C5 counterexample: for the blemish center (100,100) and radius 20,
the NE candidate generated by selectBestPatch is (128, 71), whose squared
distance to the center is 1625, not (2*20)^2 = 1600.  The diagonal
candidates are therefore not at distance exactly twice the radius. -/
theorem C5_counterexample :
    ((128 : ℤ), (71 : ℤ)) ∈ candidates (100, 100) 20 ∧
    ((128 : ℤ) - 100) ^ 2 + ((71 : ℤ) - 100) ^ 2 ≠ (2 * 20 : ℤ) ^ 2 := by
  decide

/-- Claim C5 amended: for radius >= 0 the four axis-aligned candidates lie
at distance exactly twice the radius along E, W, S, N; the diagonal
candidates are integer truncations of center + (7071/10000-scaled)
offsets, and every candidate is within per-axis offset 2*radius of the
center (diagonals in general not exactly at distance 2*radius, per the
counterexample). -/
theorem C5_amended (c : ℤ × ℤ) (radius : ℤ) (hr : 0 ≤ radius) :
    (∀ p ∈ [((c.1 + 2 * radius, c.2) : ℤ × ℤ), (c.1 - 2 * radius, c.2),
        (c.1, c.2 + 2 * radius), (c.1, c.2 - 2 * radius)],
      p ∈ candidates c radius ∧ (p.1 - c.1) ^ 2 + (p.2 - c.2) ^ 2 = (2 * radius) ^ 2) ∧
    (∀ p ∈ candidates c radius, |p.1 - c.1| ≤ 2 * radius ∧ |p.2 - c.2| ≤ 2 * radius) := by
  constructor
  · intro p hp
    have e1 : candCenter c radius (10000, 0) = (c.1 + 2 * radius, c.2) := by
      unfold candCenter
      have h1 : 10000 * c.1 + 10000 * radius * 2 = 10000 * (c.1 + 2 * radius) := by ring
      have h2 : 10000 * c.2 + 0 * radius * 2 = 10000 * c.2 := by ring
      rw [h1, h2, truncToInt_exact, truncToInt_exact]
    have e2 : candCenter c radius (-10000, 0) = (c.1 - 2 * radius, c.2) := by
      unfold candCenter
      have h1 : 10000 * c.1 + -10000 * radius * 2 = 10000 * (c.1 - 2 * radius) := by ring
      have h2 : 10000 * c.2 + 0 * radius * 2 = 10000 * c.2 := by ring
      rw [h1, h2, truncToInt_exact, truncToInt_exact]
    have e3 : candCenter c radius (0, 10000) = (c.1, c.2 + 2 * radius) := by
      unfold candCenter
      have h1 : 10000 * c.1 + 0 * radius * 2 = 10000 * c.1 := by ring
      have h2 : 10000 * c.2 + 10000 * radius * 2 = 10000 * (c.2 + 2 * radius) := by ring
      rw [h1, h2, truncToInt_exact, truncToInt_exact]
    have e4 : candCenter c radius (0, -10000) = (c.1, c.2 - 2 * radius) := by
      unfold candCenter
      have h1 : 10000 * c.1 + 0 * radius * 2 = 10000 * c.1 := by ring
      have h2 : 10000 * c.2 + -10000 * radius * 2 = 10000 * (c.2 - 2 * radius) := by ring
      rw [h1, h2, truncToInt_exact, truncToInt_exact]
    simp only [List.mem_cons, List.not_mem_nil, or_false] at hp
    rcases hp with rfl | rfl | rfl | rfl
    · exact ⟨List.mem_map.mpr ⟨(10000, 0), by simp [kDirs], e1⟩, by ring⟩
    · exact ⟨List.mem_map.mpr ⟨(-10000, 0), by simp [kDirs], e2⟩, by ring⟩
    · exact ⟨List.mem_map.mpr ⟨(0, 10000), by simp [kDirs], e3⟩, by ring⟩
    · exact ⟨List.mem_map.mpr ⟨(0, -10000), by simp [kDirs], e4⟩, by ring⟩
  · intro p hp
    rcases List.mem_map.mp hp with ⟨d, hd, rfl⟩
    have habs : |d.1| ≤ 10000 ∧ |d.2| ≤ 10000 := by
      simp only [kDirs, List.mem_cons, List.not_mem_nil, or_false] at hd
      rcases hd with rfl | rfl | rfl | rfl | rfl | rfl | rfl | rfl <;> constructor <;> decide
    have hb1 : -(10000 * (2 * radius)) ≤ d.1 * radius * 2 ∧
        d.1 * radius * 2 ≤ 10000 * (2 * radius) := by
      rcases abs_le.mp habs.1 with ⟨hl, hh⟩
      constructor <;> nlinarith
    have hb2 : -(10000 * (2 * radius)) ≤ d.2 * radius * 2 ∧
        d.2 * radius * 2 ≤ 10000 * (2 * radius) := by
      rcases abs_le.mp habs.2 with ⟨hl, hh⟩
      constructor <;> nlinarith
    have t1 := truncToInt_bound c.1 (d.1 * radius * 2) (2 * radius) hb1.1 hb1.2
    have t2 := truncToInt_bound c.2 (d.2 * radius * 2) (2 * radius) hb2.1 hb2.2
    unfold candCenter
    constructor <;> rw [abs_le] <;> constructor
    · exact t1.1.trans_eq (by ring_nf)
    · exact t1.2
    · exact t2.1.trans_eq (by ring_nf)
    · exact t2.2

/-- Witness for C5 amended at center (100,100), radius 20. -/
theorem C5_amended_witness :
    (0 : ℤ) ≤ 20 ∧
    ((∀ p ∈ [(((100 : ℤ) + 2 * 20, (100 : ℤ)) : ℤ × ℤ), (100 - 2 * 20, 100),
        (100, 100 + 2 * 20), (100, 100 - 2 * 20)],
      p ∈ candidates (100, 100) 20 ∧ (p.1 - 100) ^ 2 + (p.2 - 100) ^ 2 = (2 * 20) ^ 2) ∧
    (∀ p ∈ candidates (100, 100) 20, |p.1 - 100| ≤ 2 * 20 ∧ |p.2 - 100| ≤ 2 * 20)) :=
  ⟨by decide, C5_amended (100, 100) 20 (by decide)⟩

/-! ### Claim C6 -/

/-- Claim C6: computePatchVariance errors exactly on zero-sized input: it
returns no score precisely when the patch has zero rows or zero columns,
and a score in every other case. -/
theorem C6_rejects_only_empty (p : Patch) :
    computePatchVariance p = none ↔ (rows p = 0 ∨ cols p = 0) := by
  unfold computePatchVariance
  split_ifs with h <;> simp [h]

/-! ### Claim C8 -/

/-- Claim C8: the scorer is deterministic, a pure function of the patch
contents alone; equal patches always receive equal scores. -/
theorem C8_deterministic (p q : Patch) (h : p = q) :
    computePatchVariance p = computePatchVariance q := by
  rw [h]

/-- Witness for C8 at a concrete one-pixel patch. -/
theorem C8_deterministic_witness :
    ([[((1 : ℕ), (1 : ℕ), (1 : ℕ))]] : Patch) = [[(1, 1, 1)]] ∧
    computePatchVariance [[(1, 1, 1)]] = computePatchVariance [[(1, 1, 1)]] :=
  ⟨rfl, C8_deterministic _ _ rfl⟩

/-! ### Claim C10 -/

/-- Claim C10: in the interactive loop, after any sequence of clicks, the
key c (code 99) or C (code 67) restores the working image to exactly the
originally loaded image. -/
theorem C10_reset_restores_original (cloneFn : Patch → Img → ℤ × ℤ → Img)
    (image : Img) (clicks : List (ℤ × ℤ)) (k : ℕ) (hk : k = 99 ∨ k = 67) :
    runBlemishRemoval cloneFn image
      (clicks.map (fun q => Event.click q.1 q.2) ++ [Event.key k]) = image := by
  have hstep : ∀ g : Img, loopRun cloneFn image [Event.key k] g = image := by
    intro g
    rcases hk with h | h <;> subst h <;> simp [loopRun]
  have haux : ∀ (cs : List (ℤ × ℤ)) (g : Img),
      loopRun cloneFn image (cs.map (fun q => Event.click q.1 q.2) ++ [Event.key k]) g = image := by
    intro cs
    induction cs with
    | nil => intro g; simpa using hstep g
    | cons hd tl ih =>
      intro g
      simp only [List.map_cons, List.cons_append, loopRun]
      exact ih _
  exact haux clicks image

/-- Witness for C10: one click then the key c on the tiny test image. -/
theorem C10_reset_restores_original_witness :
    ((99 : ℕ) = 99 ∨ (99 : ℕ) = 67) ∧
    runBlemishRemoval cloneNull imgTiny
      ([((2 : ℤ), (2 : ℤ))].map (fun q => Event.click q.1 q.2) ++ [Event.key 99]) = imgTiny :=
  ⟨Or.inl rfl, C10_reset_restores_original cloneNull imgTiny [(2, 2)] 99 (Or.inl rfl)⟩

/-! ### Bridging lemmas for the candidate loop -/

theorem inB_iff (im : Img) (radius : ℤ) (sc : ℤ × ℤ) :
    inB im radius sc = true ↔
      0 ≤ sc.1 - radius ∧ 0 ≤ sc.2 - radius ∧
      sc.1 + radius + 1 ≤ (cols im : ℤ) ∧ sc.2 + radius + 1 ≤ (rows im : ℤ) := by
  unfold inB
  simp only [Bool.not_eq_true', Bool.or_eq_false_iff, decide_eq_false_iff_not, not_lt]
  omega

theorem extract_inB (im : Img) (radius : ℤ) (sc : ℤ × ℤ) (hr : 0 ≤ radius)
    (h : inB im radius sc = true) :
    extract im (sc.1 - radius) (sc.2 - radius) (sc.1 + radius + 1) (sc.2 + radius + 1) =
      .ok (patchAt im radius sc) := by
  rcases (inB_iff im radius sc).mp h with ⟨h1, h2, h3, h4⟩
  unfold extract patchAt
  rw [if_pos]
  exact ⟨h2, by omega, h4, h1, by omega, h3⟩

theorem patchAt_rows (im : Img) (radius : ℤ) (sc : ℤ × ℤ) (hr : 0 ≤ radius)
    (h : inB im radius sc = true) :
    rows (patchAt im radius sc) = (2 * radius + 1).toNat := by
  rcases (inB_iff im radius sc).mp h with ⟨h1, h2, h3, h4⟩
  have hrows : rows im = im.length := rfl
  unfold patchAt slicePatch rows
  rw [List.length_map, List.length_take, List.length_drop]
  omega

theorem patchAt_row_len (im : Img) (radius : ℤ) (sc : ℤ × ℤ) (hr : 0 ≤ radius)
    (hWF : WF im) (h : inB im radius sc = true) :
    ∀ row ∈ patchAt im radius sc, row.length = (2 * radius + 1).toNat := by
  rcases (inB_iff im radius sc).mp h with ⟨h1, h2, h3, h4⟩
  intro row hrow
  unfold patchAt slicePatch at hrow
  rcases List.mem_map.mp hrow with ⟨orig, horig, rfl⟩
  have hmem : orig ∈ im := List.drop_subset _ _ (List.take_subset _ _ horig)
  have hlen : orig.length = cols im := hWF _ hmem
  rw [List.length_take, List.length_drop, hlen]
  omega

theorem patchAt_cols (im : Img) (radius : ℤ) (sc : ℤ × ℤ) (hr : 0 ≤ radius)
    (hWF : WF im) (h : inB im radius sc = true) :
    cols (patchAt im radius sc) = (2 * radius + 1).toNat := by
  have hrows := patchAt_rows im radius sc hr h
  have hlen := patchAt_row_len im radius sc hr hWF h
  rcases hp : patchAt im radius sc with _ | ⟨a, t⟩
  · exfalso
    rw [hp] at hrows
    have : (0 : ℕ) = (2 * radius + 1).toNat := hrows
    omega
  · have hmem : a ∈ patchAt im radius sc := by rw [hp]; exact List.mem_cons_self a t
    have := hlen a hmem
    unfold cols
    simpa using this

theorem cpv_patchAt (im : Img) (radius : ℤ) (sc : ℤ × ℤ) (hr : 0 ≤ radius)
    (hWF : WF im) (h : inB im radius sc = true) :
    computePatchVariance (patchAt im radius sc) = some (patchScore im radius sc) := by
  have h1 := patchAt_rows im radius sc hr h
  have h2 := patchAt_cols im radius sc hr hWF h
  unfold computePatchVariance patchScore
  rw [if_neg]
  omega

theorem selectGo_cons_miss (im : Img) (radius : ℤ) (sc : ℤ × ℤ) (rest : List (ℤ × ℤ))
    (best : Option Patch) (minVar : Option ℚ) (h : inB im radius sc = false) :
    selectGo im radius (sc :: rest) best minVar = selectGo im radius rest best minVar := by
  simp only [selectGo]
  rw [if_neg]
  simp [h]

theorem selectGo_cons_hit (im : Img) (radius : ℤ) (sc : ℤ × ℤ) (rest : List (ℤ × ℤ))
    (best : Option Patch) (minVar : Option ℚ) (hr : 0 ≤ radius) (hWF : WF im)
    (h : inB im radius sc = true) :
    selectGo im radius (sc :: rest) best minVar =
      if ltInf (patchScore im radius sc) minVar
      then selectGo im radius rest (some (patchAt im radius sc)) (some (patchScore im radius sc))
      else selectGo im radius rest best minVar := by
  simp only [selectGo]
  rw [if_pos h, extract_inB im radius sc hr h]
  dsimp only []
  rw [cpv_patchAt im radius sc hr hWF h]

theorem selectGo_skip (im : Img) (radius : ℤ) :
    ∀ (l : List (ℤ × ℤ)) (best : Option Patch) (minVar : Option ℚ),
      (∀ p ∈ l, inB im radius p = false) →
      selectGo im radius l best minVar = .ok best := by
  intro l
  induction l with
  | nil => intro best minVar _; rfl
  | cons sc rest ih =>
    intro best minVar hall
    rw [selectGo_cons_miss im radius sc rest best minVar (hall sc (List.mem_cons_self sc rest))]
    exact ih best minVar (fun p hp => hall p (List.mem_cons_of_mem sc hp))

theorem selectGo_filter (im : Img) (radius : ℤ) :
    ∀ (l : List (ℤ × ℤ)) (best : Option Patch) (minVar : Option ℚ),
      selectGo im radius l best minVar =
        selectGo im radius (l.filter (inB im radius)) best minVar := by
  intro l
  induction l with
  | nil => intro best minVar; rfl
  | cons sc rest ih =>
    intro best minVar
    cases hin : inB im radius sc with
    | false =>
      rw [selectGo_cons_miss im radius sc rest best minVar hin,
        List.filter_cons_of_neg (by simp [hin])]
      exact ih best minVar
    | true =>
      rw [List.filter_cons_of_pos hin]
      simp only [selectGo]
      rw [if_pos hin, if_pos hin]
      rcases hext : extract im (sc.1 - radius) (sc.2 - radius) (sc.1 + radius + 1)
          (sc.2 + radius + 1) with e | patch
      · rfl
      · dsimp only []
        rcases hcpv : computePatchVariance patch with _ | v
        · rfl
        · dsimp only []
          split
          · exact ih _ _
          · exact ih _ _

theorem selectGo_ok_some (im : Img) (radius : ℤ) :
    ∀ (l : List (ℤ × ℤ)) (bp : Patch) (minVar : Option ℚ) (ob : Option Patch),
      selectGo im radius l (some bp) minVar = .ok ob → ob.isSome = true := by
  intro l
  induction l with
  | nil =>
    intro bp minVar ob h
    cases h
    rfl
  | cons sc rest ih =>
    intro bp minVar ob h
    simp only [selectGo] at h
    split at h
    · split at h
      · exact absurd h (by simp)
      · split at h
        · exact absurd h (by simp)
        · split at h
          · exact ih _ _ _ h
          · exact ih _ _ _ h
    · exact ih _ _ _ h

theorem selectGo_hit (im : Img) (radius : ℤ) :
    ∀ (l : List (ℤ × ℤ)),
      (∃ p ∈ l, inB im radius p = true) →
      ∀ ob : Option Patch, selectGo im radius l none none = .ok ob → ob.isSome = true := by
  intro l
  induction l with
  | nil => rintro ⟨p, hp, _⟩; exact absurd hp (List.not_mem_nil p)
  | cons sc rest ih =>
    rintro ⟨p, hp, hpt⟩ ob h
    cases hin : inB im radius sc with
    | true =>
      simp only [selectGo] at h
      rw [if_pos hin] at h
      split at h
      · exact absurd h (by simp)
      · split at h
        · exact absurd h (by simp)
        · split at h
          · exact selectGo_ok_some im radius rest _ _ _ h
          · rename_i hcond
            exact absurd (rfl : ltInf _ none = true) hcond
    | false =>
      have hmem : p ∈ rest := by
        rcases List.mem_cons.mp hp with rfl | hmem
        · rw [hin] at hpt; cases hpt
        · exact hmem
      exact ih ⟨p, hmem, hpt⟩ ob
        (by rwa [selectGo_cons_miss im radius sc rest none none hin] at h)

/-! ### Claim C2 -/

/-- Claim C2: selectBestPatch scores only the candidates whose bounding
square lies fully inside the image (the scan is equivalent to scanning the
in-bounds sublist), and it returns the empty no-donor result exactly when
none of the eight candidates is in bounds. -/
theorem C2_no_donor_iff (im : Img) (c : ℤ × ℤ) (radius : ℤ) :
    (selectBestPatch im c radius = .ok none ↔
      ∀ p ∈ candidates c radius, inB im radius p = false) ∧
    selectBestPatch im c radius =
      selectGo im radius ((candidates c radius).filter (inB im radius)) none none := by
  refine ⟨⟨?_, ?_⟩, selectGo_filter im radius (candidates c radius) none none⟩
  · intro h p hp
    by_contra hne
    have ht : inB im radius p = true := by simpa using hne
    have := selectGo_hit im radius (candidates c radius) ⟨p, hp, ht⟩ none h
    simp at this
  · intro h
    exact selectGo_skip im radius (candidates c radius) none none h

/-! ### First-encountered minimum characterisation of the loop -/

theorem firstMinPS_cons_none (a : Patch × ℚ) (t : List (Patch × ℚ))
    (h : firstMinPS t = none) : firstMinPS (a :: t) = some a := by
  simp [firstMinPS, h]

theorem firstMinPS_cons_some (a y : Patch × ℚ) (t : List (Patch × ℚ))
    (h : firstMinPS t = some y) :
    firstMinPS (a :: t) = if y.2 < a.2 then some y else some a := by
  simp [firstMinPS, h]

theorem firstMinPS_eq_none : ∀ l : List (Patch × ℚ), firstMinPS l = none ↔ l = [] := by
  intro l
  cases l with
  | nil => simp [firstMinPS]
  | cons a t =>
    constructor
    · intro h
      exfalso
      rcases hfm : firstMinPS t with _ | y
      · rw [firstMinPS_cons_none a t hfm] at h
        cases h
      · rw [firstMinPS_cons_some a y t hfm] at h
        by_cases hy : y.2 < a.2
        · rw [if_pos hy] at h
          cases h
        · rw [if_neg hy] at h
          cases h
    · intro h
      cases h

theorem firstMinPS_mem : ∀ (l : List (Patch × ℚ)) (x : Patch × ℚ),
    firstMinPS l = some x → x ∈ l := by
  intro l
  induction l with
  | nil => intro x h; cases h
  | cons hd tl ih =>
    intro x h
    rcases hfm : firstMinPS tl with _ | y
    · rw [firstMinPS_cons_none hd tl hfm] at h
      cases h
      exact List.mem_cons_self _ _
    · rw [firstMinPS_cons_some hd y tl hfm] at h
      by_cases hy : y.2 < hd.2
      · rw [if_pos hy] at h
        cases h
        exact List.mem_cons_of_mem _ (ih _ hfm)
      · rw [if_neg hy] at h
        cases h
        exact List.mem_cons_self _ _

theorem loopPairs_acc :
    ∀ (l : List (Patch × ℚ)) (x : Patch × ℚ),
      loopPairs l (some x) =
        match firstMinPS l with
        | none => some x
        | some y => if y.2 < x.2 then some y else some x := by
  intro l
  induction l with
  | nil => intro x; rfl
  | cons hd tl ih =>
    intro x
    simp only [loopPairs, Option.map_some', ltInf]
    rcases hfm : firstMinPS tl with _ | y
    · have e1 : loopPairs tl (some hd) = some hd := by rw [ih hd, hfm]
      have e2 : loopPairs tl (some x) = some x := by rw [ih x, hfm]
      have e3 : firstMinPS (hd :: tl) = some hd := firstMinPS_cons_none hd tl hfm
      rw [e1, e2, e3]
      by_cases hlt : hd.2 < x.2 <;> simp [hlt]
    · have e1 : loopPairs tl (some hd) = if y.2 < hd.2 then some y else some hd := by
        rw [ih hd, hfm]
      have e2 : loopPairs tl (some x) = if y.2 < x.2 then some y else some x := by
        rw [ih x, hfm]
      have e3 : firstMinPS (hd :: tl) = if y.2 < hd.2 then some y else some hd :=
        firstMinPS_cons_some hd y tl hfm
      rw [e1, e2, e3]
      by_cases h1 : hd.2 < x.2 <;> by_cases h2 : y.2 < hd.2
      · have h3 : y.2 < x.2 := lt_trans h2 h1
        simp [h1, h2, h3]
      · simp [h1, h2]
      · simp [h1, h2]
      · have h3 : ¬ y.2 < x.2 := not_lt.mpr (le_trans (not_lt.mp h1) (not_lt.mp h2))
        simp [h1, h2, h3]

theorem loopPairs_none : ∀ l : List (Patch × ℚ), loopPairs l none = firstMinPS l := by
  intro l
  cases l with
  | nil => rfl
  | cons hd tl =>
    have e : loopPairs (hd :: tl) none = loopPairs tl (some hd) := by
      simp [loopPairs, ltInf]
    rw [e, loopPairs_acc]
    rfl

theorem firstMinPS_spec : ∀ l : List (Patch × ℚ), l ≠ [] →
    ∃ (i : ℕ) (hi : i < l.length),
      firstMinPS l = some (l.get ⟨i, hi⟩) ∧
      (∀ (j : ℕ) (hj : j < l.length), (l.get ⟨i, hi⟩).2 ≤ (l.get ⟨j, hj⟩).2) ∧
      (∀ (j : ℕ) (hj : j < l.length), j < i → (l.get ⟨i, hi⟩).2 < (l.get ⟨j, hj⟩).2) := by
  intro l
  induction l with
  | nil => intro h; exact absurd rfl h
  | cons hd tl ih =>
    intro _
    rcases hfm : firstMinPS tl with _ | y
    · have htl : tl = [] := (firstMinPS_eq_none tl).mp hfm
      subst htl
      refine ⟨0, Nat.succ_pos _, ?_, ?_, ?_⟩
      · rw [firstMinPS_cons_none hd [] hfm]
        rfl
      · intro j hj
        have hj0 : j = 0 := by simp at hj; omega
        subst hj0
        exact le_refl _
      · intro j hj hj0
        exact absurd hj0 (Nat.not_lt_zero j)
    · have htl_ne : tl ≠ [] := by
        intro he
        rw [he] at hfm
        cases hfm
      obtain ⟨i, hi, hfm2, hmin, hfirst⟩ := ih htl_ne
      have hy : y = tl.get ⟨i, hi⟩ := by
        rw [hfm] at hfm2
        exact Option.some_injective _ hfm2
      by_cases hlt : y.2 < hd.2
      · refine ⟨i + 1, Nat.succ_lt_succ hi, ?_, ?_, ?_⟩
        · rw [firstMinPS_cons_some hd y tl hfm, if_pos hlt, hy]
          rfl
        · intro j hj
          cases j with
          | zero => exact le_of_lt (hy ▸ hlt)
          | succ j' => exact hmin j' (Nat.lt_of_succ_lt_succ hj)
        · intro j hj hji
          cases j with
          | zero => exact hy ▸ hlt
          | succ j' =>
            exact hfirst j' (Nat.lt_of_succ_lt_succ hj) (Nat.lt_of_succ_lt_succ hji)
      · refine ⟨0, Nat.succ_pos _, ?_, ?_, ?_⟩
        · rw [firstMinPS_cons_some hd y tl hfm, if_neg hlt]
          rfl
        · intro j hj
          cases j with
          | zero => exact le_refl _
          | succ j' =>
            exact le_trans (not_lt.mp hlt) (hy ▸ hmin j' (Nat.lt_of_succ_lt_succ hj))
        · intro j hj hji
          exact absurd hji (Nat.not_lt_zero j)

theorem selectGo_eq_loop (im : Img) (radius : ℤ) (hr : 0 ≤ radius) (hWF : WF im) :
    ∀ (l : List (ℤ × ℤ)) (acc : Option (Patch × ℚ)),
      selectGo im radius l (acc.map Prod.fst) (acc.map Prod.snd) =
        .ok (Option.map Prod.fst (loopPairs (scPairs im radius l) acc)) := by
  intro l
  induction l with
  | nil => intro acc; rfl
  | cons sc rest ih =>
    intro acc
    cases hin : inB im radius sc with
    | false =>
      rw [selectGo_cons_miss im radius sc rest _ _ hin]
      have hsc : scPairs im radius (sc :: rest) = scPairs im radius rest := by
        unfold scPairs
        rw [List.filter_cons_of_neg (by simp [hin])]
      rw [hsc]
      exact ih acc
    | true =>
      rw [selectGo_cons_hit im radius sc rest _ _ hr hWF hin]
      have hsc : scPairs im radius (sc :: rest) =
          (patchAt im radius sc, patchScore im radius sc) :: scPairs im radius rest := by
        unfold scPairs
        rw [List.filter_cons_of_pos hin, List.map_cons]
      rw [hsc]
      simp only [loopPairs]
      by_cases hlt : ltInf (patchScore im radius sc) (acc.map Prod.snd) = true
      · rw [if_pos hlt, if_pos hlt]
        simpa using ih (some (patchAt im radius sc, patchScore im radius sc))
      · rw [if_neg hlt, if_neg hlt]
        exact ih acc

/-! ### Claim C1 -/

/-- Claim C1 counterexample: on the 9x9 test image with center (4,4) and
radius 1 all eight candidates are in bounds and the minimum score is 0,
attained (among others) by the North candidate (4,2).  Under the direction
order the claim states (N, NE, E, SE, S, SW, W, NW), the first-encountered
minimal candidate is the North one, whose patch is patchNorth, as
specSelectBestPatch (the selector enumerating in the claimed order)
confirms; but selectBestPatch returns patchEast, the patch of the East
candidate, which comes first in the enumeration order of the source. -/
theorem C1_counterexample :
    (∀ p ∈ candidates (4, 4) 1, inB imgC1 1 p = true) ∧
    ((4 : ℤ), (2 : ℤ)) ∈ candidates (4, 4) 1 ∧
    patchAt imgC1 1 (4, 2) = patchNorth ∧
    computePatchVariance patchNorth = some 0 ∧
    (∀ p ∈ candidates (4, 4) 1, (0 : ℚ) ≤ patchScore imgC1 1 p) ∧
    specSelectBestPatch imgC1 (4, 4) 1 = .ok (some patchNorth) ∧
    selectBestPatch imgC1 (4, 4) 1 = .ok (some patchEast) ∧
    patchEast ≠ patchNorth :=
  ⟨by decide, by decide, by decide, by decide, by decide, by decide, by decide, by decide⟩

/-- Claim C1 amended: when all eight candidates are in bounds (and the
radius is nonnegative, the image rectangular), selectBestPatch returns the
patch of the first-encountered minimal-score candidate in the enumeration
order of the source, which in image coordinates is E, SE, S, SW, W, NW, N,
NE, not the order N, NE, E, SE, S, SW, W, NW stated by the claim. -/
theorem C1_amended (im : Img) (c : ℤ × ℤ) (radius : ℤ)
    (hr : 0 ≤ radius) (hWF : WF im)
    (hall : ∀ p ∈ candidates c radius, inB im radius p = true) :
    ∃ (i : ℕ) (hi : i < (scPairs im radius (candidates c radius)).length),
      (scPairs im radius (candidates c radius)).length = 8 ∧
      selectBestPatch im c radius =
        .ok (some ((scPairs im radius (candidates c radius)).get ⟨i, hi⟩).1) ∧
      (∀ (j : ℕ) (hj : j < (scPairs im radius (candidates c radius)).length),
        ((scPairs im radius (candidates c radius)).get ⟨i, hi⟩).2 ≤
          ((scPairs im radius (candidates c radius)).get ⟨j, hj⟩).2) ∧
      (∀ (j : ℕ) (hj : j < (scPairs im radius (candidates c radius)).length), j < i →
        ((scPairs im radius (candidates c radius)).get ⟨i, hi⟩).2 <
          ((scPairs im radius (candidates c radius)).get ⟨j, hj⟩).2) := by
  have hfull : (candidates c radius).filter (inB im radius) = candidates c radius :=
    List.filter_eq_self.mpr hall
  have hlen : (scPairs im radius (candidates c radius)).length = 8 := by
    unfold scPairs
    rw [hfull, List.length_map]
    rfl
  have hne : scPairs im radius (candidates c radius) ≠ [] := by
    intro he
    rw [he] at hlen
    cases hlen
  obtain ⟨i, hi, hfm, hmin, hfirst⟩ := firstMinPS_spec _ hne
  refine ⟨i, hi, hlen, ?_, hmin, hfirst⟩
  have heq := selectGo_eq_loop im radius hr hWF (candidates c radius) none
  unfold selectBestPatch
  simpa [loopPairs_none, hfm] using heq

/-- Witness for C1 amended on the 9x9 test image. -/
theorem C1_amended_witness :
    ((0 : ℤ) ≤ 1 ∧ WF imgC1 ∧ ∀ p ∈ candidates (4, 4) 1, inB imgC1 1 p = true) ∧
    (∃ (i : ℕ) (hi : i < (scPairs imgC1 1 (candidates (4, 4) 1)).length),
      (scPairs imgC1 1 (candidates (4, 4) 1)).length = 8 ∧
      selectBestPatch imgC1 (4, 4) 1 =
        .ok (some ((scPairs imgC1 1 (candidates (4, 4) 1)).get ⟨i, hi⟩).1) ∧
      (∀ (j : ℕ) (hj : j < (scPairs imgC1 1 (candidates (4, 4) 1)).length),
        ((scPairs imgC1 1 (candidates (4, 4) 1)).get ⟨i, hi⟩).2 ≤
          ((scPairs imgC1 1 (candidates (4, 4) 1)).get ⟨j, hj⟩).2) ∧
      (∀ (j : ℕ) (hj : j < (scPairs imgC1 1 (candidates (4, 4) 1)).length), j < i →
        ((scPairs imgC1 1 (candidates (4, 4) 1)).get ⟨i, hi⟩).2 <
          ((scPairs imgC1 1 (candidates (4, 4) 1)).get ⟨j, hj⟩).2)) :=
  ⟨⟨by decide, by decide, by decide⟩,
    C1_amended imgC1 (4, 4) 1 (by decide) (by decide) (by decide)⟩

/-! ### Claim C7 -/

/-- Claim C7: the selector is read-only on the source image and returns a
value copy: whenever selectBestPatch yields a donor patch, that patch is
exactly the cloned pixel block of one in-bounds candidate sub-rectangle of
the (unmodified) source image.  In this pure embedding patches are values,
so neither the input patch of the scorer nor the source image can be
mutated; this theorem pins down that the result is a copy of a
sub-rectangle of the input image and nothing else. -/
theorem C7_returns_copy_of_subregion (im : Img) (c : ℤ × ℤ) (radius : ℤ) (p : Patch)
    (hr : 0 ≤ radius) (hWF : WF im)
    (h : selectBestPatch im c radius = .ok (some p)) :
    ∃ q ∈ candidates c radius, inB im radius q = true ∧ p = patchAt im radius q := by
  have heq := selectGo_eq_loop im radius hr hWF (candidates c radius) none
  unfold selectBestPatch at h
  simp only [Option.map_none'] at heq
  rw [heq] at h
  rw [loopPairs_none] at h
  have h2 : Option.map Prod.fst (firstMinPS (scPairs im radius (candidates c radius))) =
      some p := by
    injection h
  rcases Option.map_eq_some'.mp h2 with ⟨x, hx, hxp⟩
  have hmem := firstMinPS_mem _ _ hx
  unfold scPairs at hmem
  rcases List.mem_map.mp hmem with ⟨q, hq, rfl⟩
  rcases List.mem_filter.mp hq with ⟨hq1, hq2⟩
  exact ⟨q, hq1, hq2, hxp.symm⟩

/-- Witness for C7 on the 9x9 test image. -/
theorem C7_returns_copy_of_subregion_witness :
    ((0 : ℤ) ≤ 1 ∧ WF imgC1 ∧ selectBestPatch imgC1 (4, 4) 1 = .ok (some patchEast)) ∧
    (∃ q ∈ candidates (4, 4) 1, inB imgC1 1 q = true ∧ patchEast = patchAt imgC1 1 q) :=
  ⟨⟨by decide, by decide, by decide⟩,
    C7_returns_copy_of_subregion imgC1 (4, 4) 1 patchEast (by decide) (by decide) (by decide)⟩

/-! ### Claim C9 -/

theorem slicePatch_rows_le (im : Img) (x0 y0 x1 y1 : ℤ) :
    rows (slicePatch im x0 y0 x1 y1) ≤ (y1 - y0).toNat := by
  unfold rows slicePatch
  rw [List.length_map, List.length_take]
  exact min_le_left _ _

theorem slicePatch_cols_le (im : Img) (x0 y0 x1 y1 : ℤ) :
    cols (slicePatch im x0 y0 x1 y1) ≤ (x1 - x0).toNat := by
  unfold cols slicePatch
  rcases hl : (im.drop y0.toNat).take (y1 - y0).toNat with _ | ⟨a, t⟩
  · simp
  · simp only [List.map_cons, List.headD_cons, List.length_take]
    exact min_le_left _ _

theorem slicePatch_entry (im : Img) (x0 y0 x1 y1 : ℤ) (i j : ℕ)
    (hi : i < (y1 - y0).toNat) (hj : j < (x1 - x0).toNat) :
    ((slicePatch im x0 y0 x1 y1).getD i []).getD j ((0 : ℕ), (0 : ℕ), (0 : ℕ)) =
      (im.getD (y0.toNat + i) []).getD (x0.toNat + j) ((0 : ℕ), (0 : ℕ), (0 : ℕ)) := by
  unfold slicePatch
  rw [List.getD_eq_getElem?_getD _ i ([] : List Pix), List.getElem?_map,
    List.getElem?_take_of_lt hi, List.getElem?_drop,
    List.getD_eq_getElem?_getD im (y0.toNat + i) ([] : List Pix)]
  rcases him : im[y0.toNat + i]? with _ | row
  · simp [him]
  · simp only [him, Option.map_some', Option.getD_some]
    rw [List.getD_eq_getElem?_getD _ j ((0 : ℕ), (0 : ℕ), (0 : ℕ)),
      List.getElem?_take_of_lt hj, List.getElem?_drop,
      List.getD_eq_getElem?_getD row (x0.toNat + j) ((0 : ℕ), (0 : ℕ), (0 : ℕ))]

/-- Claim C9: selectBestPatch never reads a pixel outside the image.  Every
candidate it extracts passes the bounds guard (0 <= x0, 0 <= y0,
x1 <= cols, y1 <= rows), and every entry of an extracted patch is the pixel
of the source image at an in-range coordinate. -/
theorem C9_candidate_reads_in_bounds (im : Img) (c : ℤ × ℤ) (radius : ℤ) :
    (∀ p ∈ (candidates c radius).filter (inB im radius),
      0 ≤ p.1 - radius ∧ 0 ≤ p.2 - radius ∧
      p.1 + radius + 1 ≤ (cols im : ℤ) ∧ p.2 + radius + 1 ≤ (rows im : ℤ)) ∧
    (∀ p ∈ (candidates c radius).filter (inB im radius),
      ∀ i j : ℕ, i < rows (patchAt im radius p) → j < cols (patchAt im radius p) →
        ((p.2 - radius).toNat + i < rows im ∧ (p.1 - radius).toNat + j < cols im) ∧
        ((patchAt im radius p).getD i []).getD j ((0 : ℕ), (0 : ℕ), (0 : ℕ)) =
          (im.getD ((p.2 - radius).toNat + i) []).getD ((p.1 - radius).toNat + j)
            ((0 : ℕ), (0 : ℕ), (0 : ℕ))) := by
  constructor
  · intro p hp
    exact (inB_iff im radius p).mp (List.mem_filter.mp hp).2
  · intro p hp i j hi hj
    rcases (inB_iff im radius p).mp (List.mem_filter.mp hp).2 with ⟨h1, h2, h3, h4⟩
    have hi2 : i < (p.2 + radius + 1 - (p.2 - radius)).toNat :=
      lt_of_lt_of_le hi (by unfold patchAt; exact slicePatch_rows_le im _ _ _ _)
    have hj2 : j < (p.1 + radius + 1 - (p.1 - radius)).toNat :=
      lt_of_lt_of_le hj (by unfold patchAt; exact slicePatch_cols_le im _ _ _ _)
    refine ⟨⟨?_, ?_⟩, ?_⟩
    · omega
    · omega
    · unfold patchAt
      exact slicePatch_entry im _ _ _ _ i j hi2 hj2

/-- Witness for C9 at the East candidate (6,4) of the 9x9 test image. -/
theorem C9_candidate_reads_in_bounds_witness :
    (0 ≤ (6 : ℤ) - 1 ∧ 0 ≤ (4 : ℤ) - 1 ∧
      (6 : ℤ) + 1 + 1 ≤ (cols imgC1 : ℤ) ∧ (4 : ℤ) + 1 + 1 ≤ (rows imgC1 : ℤ)) ∧
    ((((4 : ℤ) - 1).toNat + 0 < rows imgC1 ∧ ((6 : ℤ) - 1).toNat + 0 < cols imgC1) ∧
      ((patchAt imgC1 1 (6, 4)).getD 0 []).getD 0 ((0 : ℕ), (0 : ℕ), (0 : ℕ)) =
        (imgC1.getD (((4 : ℤ) - 1).toNat + 0) []).getD (((6 : ℤ) - 1).toNat + 0)
          ((0 : ℕ), (0 : ℕ), (0 : ℕ))) := by
  have h := C9_candidate_reads_in_bounds imgC1 (4, 4) 1
  have hmem : ((6 : ℤ), (4 : ℤ)) ∈ (candidates (4, 4) 1).filter (inB imgC1 1) := by decide
  exact ⟨h.1 (6, 4) hmem, h.2 (6, 4) hmem 0 0 (by decide) (by decide)⟩

/-! ### Claim C3 -/

theorem img41_WF : WF img41 := by
  intro row hrow
  have h := List.eq_of_mem_replicate hrow
  rw [h]
  rfl

theorem selBest_img41 :
    selectBestPatch img41 (0, 20) 20 = .ok (some (patchAt img41 20 (40, 20))) := by
  have hc : candidates (0, 20) 20 =
      [(40, 20), (28, 48), (0, 60), (-28, 48), (-40, 20), (-28, -8), (0, -20), (28, -8)] := by
    decide
  unfold selectBestPatch
  rw [hc]
  rw [selectGo_cons_hit img41 20 (40, 20) _ none none (by decide) img41_WF (by decide)]
  have hlt : ltInf (patchScore img41 20 (40, 20)) none = true := rfl
  rw [if_pos hlt]
  exact selectGo_skip img41 20 _ _ _ (by decide)

/-- Claim C3: the mouse handler skips the correction and leaves the working
image unchanged whenever the selector yields no donor patch, and still
applies the (external) seamless-cloning composite at clicks where a donor
is found. -/
theorem C3_no_donor_skips (cloneFn : Patch → Img → ℤ × ℤ → Img) (g : Img) (x y : ℤ) :
    (selectBestPatch g (x, y) kDefaultRad = .ok none → onMouse cloneFn g x y = .ok g) ∧
    (∀ patch, selectBestPatch g (x, y) kDefaultRad = .ok (some patch) →
      onMouse cloneFn g x y = .ok (cloneFn patch g (x, y))) := by
  constructor
  · intro h
    unfold onMouse
    rw [h]
  · intro patch h
    unfold onMouse
    rw [h]

/-- Witness for C3: a click on the 5x5 image has no in-bounds candidate and
is skipped; a click at (0,20) on the 41x81 image finds a donor and the
composite is applied. -/
theorem C3_no_donor_skips_witness :
    (selectBestPatch imgTiny (2, 2) kDefaultRad = .ok none ∧
      onMouse cloneNull imgTiny 2 2 = .ok imgTiny) ∧
    (selectBestPatch img41 (0, 20) kDefaultRad = .ok (some (patchAt img41 20 (40, 20))) ∧
      onMouse cloneNull img41 0 20 = .ok (cloneNull (patchAt img41 20 (40, 20)) img41 (0, 20))) := by
  have h1 : selectBestPatch imgTiny (2, 2) kDefaultRad = .ok none := by decide
  have h2 : selectBestPatch img41 (0, 20) kDefaultRad = .ok (some (patchAt img41 20 (40, 20))) :=
    selBest_img41
  exact ⟨⟨h1, (C3_no_donor_skips cloneNull imgTiny 2 2).1 h1⟩,
    ⟨h2, (C3_no_donor_skips cloneNull img41 0 20).2 _ h2⟩⟩

end BlemishRemoval
